import Mathlib

/-!
# ReviewBot, `examples/example1`: the user-score aggregator

A shallow embedding of the three source files of `examples/example1`

* `user_processor.cxx` : `process_user_data`
* `utils.hxx`          : `last_error_message`, `logError`
* `main.cxx`           : `main`

and theorems about them.

## Modelling conventions

* `std::vector<T>` is a `List T`; `v[i]` is the partial read `v[i]?`, and a read
  outside the vector is the fault `Fault.outOfBounds`.
* `std::string` is a `String` (one `Char` stands for one byte), compared with `=`.
* `int` is an `Int`.  The accumulator `total_score` and the quotient are reduced
  with `wrapInt` (32-bit two's complement) after every operation.  The counters
  `i` and `user_count` only ever count positions of `names`; they are kept
  unreduced (vectors of `2^31` or more strings are not modelled).
* Standard output and the global `last_error_message` form the explicit state
  `World`, threaded through every function that touches them.
* `Call.divisions` and `Run.logged` are ghost logs: the operand pairs of the
  divisions that were evaluated, and the arguments of the `logError` calls made.
-/

namespace UserProcessor

/-! ## Machine integers -/

/-- Smallest value of a 32-bit `int`. -/
def INT_MIN : Int := -2147483648

/-- Largest value of a 32-bit `int`. -/
def INT_MAX : Int := 2147483647

/-- Predicate: the integer is a value of the C++ type `int`. -/
def IsInt (x : Int) : Prop := INT_MIN ≤ x ∧ x ≤ INT_MAX

instance (x : Int) : Decidable (IsInt x) := by
  unfold IsInt; infer_instance

/-- Reduction of an integer to 32-bit two's complement. -/
def wrapInt (x : Int) : Int := (x + 2147483648) % 4294967296 - 2147483648

/-- Ways in which an execution leaves defined behaviour (or the model its fuel). -/
inductive Fault where
  | outOfBounds
  | divByZero
  | outOfFuel
  deriving DecidableEq, Repr

/-- The `/` of C++ on `int`: truncation toward zero, undefined for a zero divisor. -/
def cdiv (a b : Int) : Except Fault Int :=
  if b = 0 then .error .divByZero else .ok (wrapInt (Int.tdiv a b))

/-! ## State: standard output and `utils.hxx` -/

/-- Observable state: the text written to standard output so far and the global
`std::string last_error_message` of `utils.hxx`. -/
structure World where
  out : String
  last_error_message : String
  deriving DecidableEq, Repr

/-- State at program start: nothing printed, the global string default-constructed. -/
def World.initial : World := { out := "", last_error_message := "" }

/-- Source `utils.hxx`, `logError`: overwrite the global with the message. -/
def logError (message : String) (w : World) : World :=
  { w with last_error_message := message }

/-- What `printf("%s", s.c_str())` writes: the characters before the first NUL. -/
def cstr (s : String) : String :=
  String.mk (s.data.takeWhile (fun c => c != Char.ofNat 0))

/-- The text of `printf("Found %d users with name %s\n", user_count, targetName.c_str())`. -/
def foundLine (user_count : Int) (targetName : String) : String :=
  "Found " ++ toString user_count ++ " users with name " ++ cstr targetName ++ "\n"

/-! ## `user_processor.cxx` -/

/-- The `for` loop of `process_user_data` (lines 11-16), started at index `i` with the
given accumulator and counter; returns the final `(total_score, user_count)`.
`fuel` bounds the number of iterations. -/
def scan (names : List String) (scores : List Int) (targetName : String) :
    Nat → Nat → Int → Int → Except Fault (Int × Int)
  | fuel, i, total_score, user_count =>
    if i < names.length then
      match fuel with
      | 0 => .error .outOfFuel
      | fuel + 1 =>
        match names[i]? with
        | none => .error .outOfBounds
        | some name =>
          if name = targetName then
            match scores[i]? with
            | none => .error .outOfBounds
            | some s =>
              scan names scores targetName fuel (i + 1)
                (wrapInt (total_score + s)) (user_count + 1)
          else
            scan names scores targetName fuel (i + 1) total_score user_count
    else
      .ok (total_score, user_count)

/-- Outcome of one call of `process_user_data`. -/
structure Call where
  ret : Int
  world : World
  divisions : List (Int × Int)
  deriving DecidableEq, Repr

/-- Lines 25-26 of `process_user_data`: print the diagnostic line, return the average. -/
def finish (w : World) (user_count : Int) (targetName : String)
    (average_score : Int) (divisions : List (Int × Int)) : Call :=
  { ret := average_score
    world := { w with out := w.out ++ foundLine user_count targetName }
    divisions := divisions }

/-- Source `user_processor.cxx`, `process_user_data`. -/
def process_user_data (names : List String) (scores : List Int) (targetName : String)
    (w : World) : Except Fault Call :=
  match scan names scores targetName names.length 0 0 0 with
  | .error e => .error e
  | .ok (total_score, user_count) =>
    if user_count > 0 then
      match cdiv total_score user_count with
      | .error e => .error e
      | .ok q => .ok (finish w user_count targetName q [(total_score, user_count)])
    else
      .ok (finish w user_count targetName 0 [])

/-! ## `main.cxx` -/

/-- Outcome of one run of the driver. -/
structure Run where
  status : Int
  world : World
  logged : List String
  deriving DecidableEq, Repr

/-- The message the driver passes to `logError`. -/
def errorText : String := "Could not calculate average score."

/-- Lines 12-22 of `main`, as a function of the three values `main` builds in
lines 8-10 and of the state at entry. -/
def driver (names : List String) (scores : List Int) (target : String)
    (w : World) : Except Fault Run :=
  match process_user_data names scores target w with
  | .error e => .error e
  | .ok c =>
    let avg := c.ret
    if avg > 0 then
      .ok { status := 0
            world := { c.world with
              out := c.world.out ++ "Average score for " ++ target ++ " is: "
                ++ toString avg ++ "\n" }
            logged := [] }
    else
      let w1 := logError errorText c.world
      .ok { status := 0
            world := { w1 with
              out := w1.out ++ "An error occurred: " ++ w1.last_error_message ++ "\n" }
            logged := [errorText] }

/-- Source `main.cxx`, `main`: the driver on its literal input. -/
def main : Except Fault Run :=
  driver ["Alice", "Bob", "Charlie", "Alice"] [88, 92, 76, 95] "Alice" World.initial


/-! ## Reference notions -/

/-- The scores at the positions whose name equals the target, in list order. -/
def matchedScores (names : List String) (scores : List Int) (target : String) : List Int :=
  ((names.zip scores).filter (fun p => decide (p.1 = target))).map Prod.snd

/-- The running sum as the loop computes it: reduced to 32 bits after every addition. -/
def wrapSum (acc : Int) (l : List Int) : Int :=
  l.foldl (fun a s => wrapInt (a + s)) acc

/-- The list whose position `j` holds the element of `l` at position `p[j]`: `l` reordered
by the list of positions `p`. -/
def reorder {α : Type} (p : List Nat) (l : List α) : List α :=
  p.filterMap (fun i => l[i]?)

/-- The `aggregate` of the specification (section 4.1) over unbounded integers: the sum of
the matched scores divided by the match count with truncation toward zero when the count
is positive, otherwise 0. -/
def aggregate (names : List String) (scores : List Int) (target : String) : Int :=
  if 0 < (matchedScores names scores target).length then
    Int.tdiv (matchedScores names scores target).sum (matchedScores names scores target).length
  else 0

/-! ## Lemmas on machine integers -/

theorem wrapInt_of_isInt {x : Int} (h : IsInt x) : wrapInt x = x := by
  unfold IsInt INT_MIN INT_MAX at h
  unfold wrapInt
  omega

theorem isInt_tdiv {a b : Int} (ha : IsInt a) (hb : 0 < b) : IsInt (Int.tdiv a b) := by
  unfold IsInt INT_MIN INT_MAX at *
  rcases le_total 0 a with h | h
  · have h1 : 0 ≤ Int.tdiv a b := Int.tdiv_nonneg h hb.le
    have h2 : Int.tdiv a b ≤ a := by
      rw [Int.tdiv_eq_ediv h hb.le]
      exact Int.ediv_le_self b h
    omega
  · have hn : 0 ≤ -a := by omega
    have h1 : 0 ≤ Int.tdiv (-a) b := Int.tdiv_nonneg hn hb.le
    have h2 : Int.tdiv (-a) b ≤ -a := by
      rw [Int.tdiv_eq_ediv hn hb.le]
      exact Int.ediv_le_self b hn
    rw [Int.neg_tdiv] at h1 h2
    omega

/-! ## The loop -/

theorem matchedScores_nil_left (scores : List Int) (t : String) :
    matchedScores [] scores t = [] := by
  simp [matchedScores]

theorem matchedScores_cons_eq (t : String) (ns : List String) (s : Int) (ss : List Int) :
    matchedScores (t :: ns) (s :: ss) t = s :: matchedScores ns ss t := by
  simp [matchedScores]

theorem matchedScores_cons_ne {n t : String} (h : n ≠ t) (ns : List String) (s : Int)
    (ss : List Int) : matchedScores (n :: ns) (s :: ss) t = matchedScores ns ss t := by
  simp [matchedScores, h]

theorem scan_eq (names : List String) (scores : List Int) (t : String)
    (hlen : names.length ≤ scores.length) :
    ∀ (fuel i : Nat) (total count : Int), names.length - i ≤ fuel →
      scan names scores t fuel i total count =
        .ok (wrapSum total (matchedScores (names.drop i) (scores.drop i) t),
             count + ((matchedScores (names.drop i) (scores.drop i) t).length : Int)) := by
  intro fuel
  induction fuel with
  | zero =>
    intro i total count hf
    have hi : names.length ≤ i := by omega
    have : ¬ i < names.length := by omega
    simp [scan, this, List.drop_eq_nil_of_le hi, matchedScores_nil_left, wrapSum]
  | succ fuel ih =>
    intro i total count hf
    by_cases hi : i < names.length
    · have hs : i < scores.length := by omega
      have hn : names.drop i = names[i] :: names.drop (i + 1) := List.drop_eq_getElem_cons hi
      have hsc : scores.drop i = scores[i] :: scores.drop (i + 1) := List.drop_eq_getElem_cons hs
      rw [scan]
      simp only [hi, if_true, List.getElem?_eq_getElem hi, List.getElem?_eq_getElem hs]
      by_cases hm : names[i] = t
      · simp only [hm, if_true]
        rw [ih (i + 1) _ _ (by omega), hn, hsc, hm, matchedScores_cons_eq]
        simp [wrapSum]
        omega
      · simp only [hm, if_false]
        rw [ih (i + 1) _ _ (by omega), hn, hsc, matchedScores_cons_ne hm]
    · have hi2 : names.length ≤ i := by omega
      rw [scan]
      simp [hi, List.drop_eq_nil_of_le hi2, matchedScores_nil_left, wrapSum]


theorem matchedScores_length (t : String) :
    ∀ (names : List String) (scores : List Int), names.length ≤ scores.length →
      (matchedScores names scores t).length = names.count t
  | [], scores, _ => by simp [matchedScores_nil_left]
  | n :: ns, [], h => by simp at h
  | n :: ns, s :: ss, h => by
    have h2 : ns.length ≤ ss.length := by simpa using h
    by_cases hm : n = t
    · subst hm
      rw [matchedScores_cons_eq, List.length_cons, matchedScores_length n ns ss h2,
        List.count_cons_self]
    · rw [matchedScores_cons_ne hm, matchedScores_length t ns ss h2,
        List.count_cons_of_ne (Ne.symm hm)]

theorem matchedScores_of_not_mem (t : String) :
    ∀ (names : List String) (scores : List Int), t ∉ names → matchedScores names scores t = []
  | [], scores, _ => matchedScores_nil_left scores t
  | n :: ns, [], _ => by simp [matchedScores]
  | n :: ns, s :: ss, h => by
    have hm : n ≠ t := fun e => h (by simp [e])
    have h2 : t ∉ ns := fun e => h (List.mem_cons_of_mem _ e)
    rw [matchedScores_cons_ne hm, matchedScores_of_not_mem t ns ss h2]

theorem wrapSum_eq_sum :
    ∀ (l : List Int) (acc : Int), (∀ k, k ≤ l.length → IsInt (acc + (l.take k).sum)) →
      wrapSum acc l = acc + l.sum
  | [], acc, _ => by simp [wrapSum]
  | s :: l, acc, h => by
    have h1 : IsInt (acc + s) := by simpa using h 1 (by simp)
    have h2 : ∀ k, k ≤ l.length → IsInt (acc + s + (l.take k).sum) := by
      intro k hk
      have := h (k + 1) (by simpa using hk)
      simpa [add_assoc] using this
    have ih := wrapSum_eq_sum l (acc + s) h2
    simp only [wrapSum, List.foldl_cons, List.sum_cons] at ih ⊢
    rw [wrapInt_of_isInt h1, ih, add_assoc]

/-- The loop never stops for lack of fuel and never reads `names` out of bounds: started
with enough fuel it ends with a pair or with an out-of-bounds read of `scores`. -/
theorem scan_cases (names : List String) (scores : List Int) (t : String) :
    ∀ (fuel i : Nat) (total count : Int), names.length - i ≤ fuel →
      (∃ tot cnt, scan names scores t fuel i total count = .ok (tot, cnt) ∧ count ≤ cnt ∧
          (t ∉ names → tot = total ∧ cnt = count)) ∨
        (scan names scores t fuel i total count = .error .outOfBounds ∧
          ¬ names.length ≤ scores.length ∧ t ∈ names) := by
  intro fuel
  induction fuel with
  | zero =>
    intro i total count hf
    have : ¬ i < names.length := by omega
    left
    exact ⟨total, count, by simp [scan, this], le_refl _, fun _ => ⟨rfl, rfl⟩⟩
  | succ fuel ih =>
    intro i total count hf
    by_cases hi : i < names.length
    · rw [scan]
      simp only [hi, if_true, List.getElem?_eq_getElem hi]
      by_cases hm : names[i] = t
      · simp only [hm, if_true]
        by_cases hs : i < scores.length
        · simp only [List.getElem?_eq_getElem hs]
          rcases ih (i + 1) (wrapInt (total + scores[i])) (count + 1) (by omega) with
            ⟨tot, cnt, h1, h2, h3⟩ | h
          · left
            refine ⟨tot, cnt, h1, by omega, fun hn => ?_⟩
            exact absurd (hm ▸ List.getElem_mem hi) hn
          · right; exact h
        · right
          have : scores[i]? = none := List.getElem?_eq_none (by omega)
          simp only [this]
          exact ⟨trivial, by omega, hm ▸ List.getElem_mem hi⟩
      · simp only [hm, if_false]
        exact ih (i + 1) total count (by omega)
    · left
      exact ⟨total, count, by rw [scan]; simp [hi], le_refl _, fun _ => ⟨rfl, rfl⟩⟩


/-! ## The whole function -/

/-- With `scores` at least as long as `names` the call returns, and this is its outcome. -/
theorem process_user_data_eq (names : List String) (scores : List Int) (t : String) (w : World)
    (hlen : names.length ≤ scores.length) :
    process_user_data names scores t w =
      .ok (if 0 < (names.count t : Int) then
            finish w (names.count t) t
              (wrapInt (Int.tdiv (wrapSum 0 (matchedScores names scores t)) (names.count t)))
              [(wrapSum 0 (matchedScores names scores t), (names.count t : Int))]
          else finish w (names.count t) t 0 []) := by
  have hs := scan_eq names scores t hlen names.length 0 0 0 (by omega)
  simp only [List.drop_zero, zero_add, matchedScores_length t names scores hlen] at hs
  unfold process_user_data
  rw [hs]
  by_cases hc : 0 < (names.count t : Int)
  · have hne : ¬ ((names.count t : Int) = 0) := by omega
    simp [hc, cdiv, hne]
  · simp [hc]

/-- Whatever the lengths, a call either returns after evaluating divisions by positive
counts only, or stops at an out-of-bounds read of a `scores` that is too short. -/
theorem process_user_data_cases (names : List String) (scores : List Int) (t : String)
    (w : World) :
    (∃ c, process_user_data names scores t w = .ok c ∧ (∀ d ∈ c.divisions, 0 < d.2) ∧
        (t ∉ names → c = finish w 0 t 0 [])) ∨
      (process_user_data names scores t w = .error .outOfBounds ∧
        ¬ names.length ≤ scores.length ∧ t ∈ names) := by
  rcases scan_cases names scores t names.length 0 0 0 (by omega) with
    ⟨tot, cnt, h1, h2, h3⟩ | ⟨h1, h2⟩
  · left
    unfold process_user_data
    rw [h1]
    by_cases hc : 0 < cnt
    · have hne : ¬ cnt = 0 := by omega
      refine ⟨finish w cnt t (wrapInt (Int.tdiv tot cnt)) [(tot, cnt)], by simp [hc, cdiv, hne],
        ?_, ?_⟩
      · intro d hd
        simp [finish] at hd
        rw [hd]; exact hc
      · intro hn
        have := (h3 hn).2
        omega
    · refine ⟨finish w cnt t 0 [], by simp [hc], ?_, ?_⟩
      · intro d hd
        simp [finish] at hd
      · intro hn
        rw [(h3 hn).2]
  · right
    unfold process_user_data
    rw [h1]
    exact ⟨rfl, h2⟩

/-- The state at entry only shows up as the prefix of the output and as the untouched
error slot: return value, printed text, divisions and faults are the same from any state. -/
theorem process_user_data_frame (names : List String) (scores : List Int) (t : String)
    (w1 w2 : World) :
    (∃ e, process_user_data names scores t w1 = .error e ∧
        process_user_data names scores t w2 = .error e) ∨
      (∃ ret line divs,
        process_user_data names scores t w1 =
          .ok { ret := ret, world := { w1 with out := w1.out ++ line }, divisions := divs } ∧
        process_user_data names scores t w2 =
          .ok { ret := ret, world := { w2 with out := w2.out ++ line }, divisions := divs }) := by
  unfold process_user_data
  cases scan names scores t names.length 0 0 0 with
  | error e => left; exact ⟨e, rfl, rfl⟩
  | ok p =>
    obtain ⟨tot, cnt⟩ := p
    by_cases hc : cnt > 0
    · simp only [hc, if_true]
      cases cdiv tot cnt with
      | error e => left; exact ⟨e, rfl, rfl⟩
      | ok q => right; exact ⟨q, foundLine cnt t, [(tot, cnt)], rfl, rfl⟩
    · simp only [hc, if_false]
      right; exact ⟨0, foundLine cnt t, [], rfl, rfl⟩

/-- With at least one match and a running sum that stays in range, the call returns the
truncated mean of the matched scores. -/
theorem process_user_data_mean (names : List String) (scores : List Int) (t : String)
    (w : World) (hlen : names.length ≤ scores.length) (hn : 1 ≤ names.count t)
    (hsum : ∀ k, k ≤ (matchedScores names scores t).length →
      IsInt ((matchedScores names scores t).take k).sum) :
    process_user_data names scores t w =
      .ok (finish w (names.count t) t
        (Int.tdiv (matchedScores names scores t).sum (names.count t))
        [((matchedScores names scores t).sum, (names.count t : Int))]) := by
  have hc : 0 < (names.count t : Int) := by omega
  have hw : wrapSum 0 (matchedScores names scores t) = (matchedScores names scores t).sum := by
    rw [wrapSum_eq_sum _ 0 (by simpa using hsum), zero_add]
  have htot : IsInt (matchedScores names scores t).sum := by
    simpa using hsum _ (le_refl _)
  rw [process_user_data_eq names scores t w hlen, if_pos hc, hw,
    wrapInt_of_isInt (isInt_tdiv htot hc)]


theorem matchedScores_unique (t : String) (s : Int) :
    ∀ (names : List String) (scores : List Int) (k : Nat),
      names[k]? = some t → (∀ j, names[j]? = some t → j = k) → scores[k]? = some s →
      matchedScores names scores t = [s]
  | [], _, k, h, _, _ => by simp at h
  | n :: ns, [], k, _, _, h => by simp at h
  | n :: ns, s0 :: ss, 0, hk, hu, hs => by
    have hn : n = t := by simpa using hk
    have hs0 : s0 = s := by simpa using hs
    have hnot : t ∉ ns := by
      intro hmem
      obtain ⟨j, hj, hjt⟩ := List.getElem_of_mem hmem
      have := hu (j + 1) (by simp [List.getElem?_eq_getElem hj, hjt])
      omega
    rw [hn, hs0, matchedScores_cons_eq, matchedScores_of_not_mem t ns ss hnot]
  | n :: ns, s0 :: ss, k + 1, hk, hu, hs => by
    have hne : n ≠ t := by
      intro e
      have := hu 0 (by simp [e])
      omega
    rw [matchedScores_cons_ne hne]
    refine matchedScores_unique t s ns ss k (by simpa using hk) ?_ (by simpa using hs)
    intro j hj
    have := hu (j + 1) (by simpa using hj)
    omega

/-! ## Claims -/

/-- C1, as stated, fails: with the matched scores 2147483647 and 1 (equal lengths, both
scores values of `int`, two matches) the running sum leaves the range of `int`; the call
returns -1073741824 while the sum divided by the number of matches is 1073741824. -/
theorem process_user_data_mean_fails_on_overflow :
    (["a", "a"] : List String).length = ([2147483647, 1] : List Int).length ∧
      (∀ s ∈ ([2147483647, 1] : List Int), IsInt s) ∧
      List.count "a" ["a", "a"] = 2 ∧
      (∃ c, process_user_data ["a", "a"] [2147483647, 1] "a" World.initial = .ok c ∧
        c.ret = -1073741824) ∧
      Int.tdiv (matchedScores ["a", "a"] [2147483647, 1] "a").sum 2 = 1073741824 :=
  ⟨by decide, by decide, by decide, ⟨_, rfl, rfl⟩, by decide⟩

/-- C1, amended: for equal-length names and scores and a target that occurs n >= 1 times,
if every running sum of the matched scores (in list order) is a value of `int`, then
`process_user_data` returns the sum of the scores at exactly the positions whose name
equals the target (there are n of them), divided by n with truncation toward zero. -/
theorem process_user_data_truncated_mean (names : List String) (scores : List Int)
    (target : String) (w : World) (hlen : names.length = scores.length)
    (hn : 1 ≤ names.count target)
    (hsum : ∀ k, k ≤ (matchedScores names scores target).length →
      IsInt ((matchedScores names scores target).take k).sum) :
    (matchedScores names scores target).length = names.count target ∧
      ∃ c, process_user_data names scores target w = .ok c ∧
        c.ret = Int.tdiv (matchedScores names scores target).sum (names.count target) :=
  ⟨matchedScores_length target names scores hlen.le,
    _, process_user_data_mean names scores target w hlen.le hn hsum, rfl⟩

/-- C1, witness: the scores -3 and -4 of the target give -3, not -4. -/
theorem process_user_data_truncated_mean_witness :
    Int.tdiv (matchedScores ["a", "b", "a"] [-3, 10, -4] "a").sum
        (List.count "a" ["a", "b", "a"]) = -3 ∧
      ((matchedScores ["a", "b", "a"] [-3, 10, -4] "a").length = List.count "a" ["a", "b", "a"] ∧
        ∃ c, process_user_data ["a", "b", "a"] [-3, 10, -4] "a" World.initial = .ok c ∧
          c.ret = Int.tdiv (matchedScores ["a", "b", "a"] [-3, 10, -4] "a").sum
            (List.count "a" ["a", "b", "a"])) :=
  ⟨by decide,
    process_user_data_truncated_mean ["a", "b", "a"] [-3, 10, -4] "a" World.initial
      (by decide) (by decide) (by decide)⟩

/-- C2: when the target does not occur in names (empty lists included) the call returns 0
and evaluates no division; this holds for scores of any length, equal length included. -/
theorem process_user_data_absent (names : List String) (scores : List Int) (target : String)
    (w : World) (habs : target ∉ names) :
    ∃ c, process_user_data names scores target w = .ok c ∧ c.ret = 0 ∧ c.divisions = [] := by
  rcases process_user_data_cases names scores target w with ⟨c, h1, _, h3⟩ | ⟨h1, h2⟩
  · exact ⟨c, h1, by rw [h3 habs]; rfl, by rw [h3 habs]; rfl⟩
  · exact absurd h2.2 habs


/-- C2, witness: the target "Dave" is absent from the driver's list; empty lists. -/
theorem process_user_data_absent_witness :
    ("Dave" ∉ ["Alice", "Bob", "Charlie", "Alice"] ∧
      ∃ c, process_user_data ["Alice", "Bob", "Charlie", "Alice"] [88, 92, 76, 95] "Dave"
        World.initial = .ok c ∧ c.ret = 0 ∧ c.divisions = []) ∧
    ("Dave" ∉ ([] : List String) ∧
      ∃ c, process_user_data [] [] "Dave" World.initial = .ok c ∧ c.ret = 0 ∧
        c.divisions = []) :=
  ⟨⟨by decide, process_user_data_absent _ _ _ _ (by decide)⟩,
    ⟨by decide, process_user_data_absent _ _ _ _ (by decide)⟩⟩

/-- C3: for equal-length names and scores and a target that occurs at exactly one position k
of names, the call returns scores[k] unchanged, for every value s of `int` stored there. -/
theorem process_user_data_single_match (names : List String) (scores : List Int)
    (target : String) (w : World) (k : Nat) (s : Int)
    (hlen : names.length = scores.length)
    (hk : names[k]? = some target) (huniq : ∀ j, names[j]? = some target → j = k)
    (hs : scores[k]? = some s) (hint : IsInt s) :
    ∃ c, process_user_data names scores target w = .ok c ∧ c.ret = s := by
  have hm := matchedScores_unique target s names scores k hk huniq hs
  have hc : names.count target = 1 := by
    rw [← matchedScores_length target names scores hlen.le, hm]; rfl
  have hsum : ∀ k, k ≤ (matchedScores names scores target).length →
      IsInt ((matchedScores names scores target).take k).sum := by
    intro j hj
    rw [hm] at hj ⊢
    have hj1 : j ≤ 1 := by simpa using hj
    interval_cases j
    · simp [IsInt, INT_MIN, INT_MAX]
    · simpa using hint
  refine ⟨_, process_user_data_mean names scores target w hlen.le (by omega) hsum, ?_⟩
  simp [finish, hm, hc]

/-- C3, witness: names=["Bob"], scores=[92], target="Bob" returns 92. -/
theorem process_user_data_single_match_witness :
    ∃ c, process_user_data ["Bob"] [92] "Bob" World.initial = .ok c ∧ c.ret = 92 :=
  process_user_data_single_match ["Bob"] [92] "Bob" World.initial 0 92 (by decide) (by decide)
    (by
      intro j hj
      match j, hj with
      | 0, _ => rfl
      | j + 1, h => simp at h)
    (by decide) (by decide)


/-- The two final lines of the driver differ: one starts "Av", the other "An". -/
theorem success_line_ne_failure_line (pre target num : String) :
    pre ++ "An error occurred: " ++ errorText ++ "\n" ≠
      pre ++ "Average score for " ++ target ++ " is: " ++ num ++ "\n" := by
  intro h
  have h2 := congrArg String.data h
  simp only [String.data_append, List.append_assoc, List.append_cancel_left_eq] at h2
  have h3 := congrArg (fun l => l[1]?) h2
  simp at h3

/-- C4: whenever `process_user_data` returns a value `c.ret`, the driver prints
"Average score for <target> is: <avg>" exactly when that value is > 0 and then logs nothing;
when it is <= 0 (a present target with zero or negative average included) it calls
`logError` with "Could not calculate average score." and prints "An error occurred: "
followed by that message, whatever the error slot held at entry. -/
theorem driver_branches (names : List String) (scores : List Int) (target : String)
    (w : World) (c : Call) (hc : process_user_data names scores target w = .ok c) :
    ∃ r, driver names scores target w = .ok r ∧
      (0 < c.ret →
        r.world.out = c.world.out ++ "Average score for " ++ target ++ " is: "
          ++ toString c.ret ++ "\n" ∧
        r.world.last_error_message = c.world.last_error_message ∧ r.logged = []) ∧
      (c.ret ≤ 0 →
        r.world.out = c.world.out
          ++ "An error occurred: Could not calculate average score.\n" ∧
        r.world.last_error_message = "Could not calculate average score." ∧
        r.logged = ["Could not calculate average score."]) ∧
      (r.world.out = c.world.out ++ "Average score for " ++ target ++ " is: "
          ++ toString c.ret ++ "\n" ↔ 0 < c.ret) := by
  unfold driver
  rw [hc]
  by_cases hp : 0 < c.ret
  · have hp2 : ¬ c.ret ≤ 0 := by omega
    simp [hp, hp2]
  · have hp2 : c.ret ≤ 0 := by omega
    have hne := success_line_ne_failure_line c.world.out target (toString c.ret)
    have hline : c.world.out ++ "An error occurred: " ++ errorText ++ "\n" =
        c.world.out ++ "An error occurred: Could not calculate average score.\n" := by
      rw [String.append_assoc, String.append_assoc]; rfl
    refine ⟨_, by simp only [gt_iff_lt, hp, if_false]; rfl, fun h => absurd h hp, fun _ => ?_, ?_⟩
    · exact ⟨by simp only [logError]; exact hline, rfl, rfl⟩
    · simp only [logError]
      exact ⟨fun h => absurd h hne, fun h => absurd h hp⟩


/-- C4, witness: a present target with average 0 and an error slot that held "old" at
entry; the driver logs and prints the new message. -/
theorem driver_branches_witness :
    process_user_data ["Zed"] [0] "Zed" { out := "", last_error_message := "old" } =
        .ok { ret := 0
              world := { out := "Found 1 users with name Zed\n", last_error_message := "old" }
              divisions := [(0, 1)] } ∧
      ∃ r, driver ["Zed"] [0] "Zed" { out := "", last_error_message := "old" } = .ok r ∧
        ((0 : Int) < 0 →
          r.world.out = "Found 1 users with name Zed\n" ++ "Average score for " ++ "Zed"
            ++ " is: " ++ toString (0 : Int) ++ "\n" ∧
          r.world.last_error_message = "old" ∧ r.logged = []) ∧
        ((0 : Int) ≤ 0 →
          r.world.out = "Found 1 users with name Zed\n"
            ++ "An error occurred: Could not calculate average score.\n" ∧
          r.world.last_error_message = "Could not calculate average score." ∧
          r.logged = ["Could not calculate average score."]) ∧
        (r.world.out = "Found 1 users with name Zed\n" ++ "Average score for " ++ "Zed"
            ++ " is: " ++ toString (0 : Int) ++ "\n" ↔ (0 : Int) < 0) :=
  ⟨rfl, driver_branches ["Zed"] [0] "Zed" { out := "", last_error_message := "old" }
    { ret := 0
      world := { out := "Found 1 users with name Zed\n", last_error_message := "old" }
      divisions := [(0, 1)] } rfl⟩

/-- C5: on the driver's literal input `process_user_data` returns (88+95)/2 = 91, and `main`
prints "Average score for Alice is: 91" after the diagnostic line, calls `logError` not
once, and leaves the error slot empty. -/
theorem main_prints_average :
    (∃ c, process_user_data ["Alice", "Bob", "Charlie", "Alice"] [88, 92, 76, 95] "Alice"
        World.initial = .ok c ∧ c.ret = 91 ∧ c.ret = Int.tdiv (88 + 95) 2) ∧
      main = .ok { status := 0
                   world := { out := "Found 2 users with name Alice\n"
                                ++ "Average score for Alice is: 91\n"
                              last_error_message := "" }
                   logged := [] } :=
  ⟨⟨_, rfl, rfl, rfl⟩, rfl⟩

/-- C6: a return value of 0 does not tell "found" from "not found". The target occurs and
the call returns 0 for one match with score 0, for two matches with scores 1 and -1, and
for two matches with scores 1 and 0; 0 is also what every call with an absent target
returns; so "result = 0" does not imply "target absent". -/
theorem zero_result_is_ambiguous :
    ("a" ∈ ["a"] ∧ ∃ c, process_user_data ["a"] [0] "a" World.initial = .ok c ∧ c.ret = 0) ∧
    ("a" ∈ ["a", "a"] ∧
      ∃ c, process_user_data ["a", "a"] [1, -1] "a" World.initial = .ok c ∧ c.ret = 0) ∧
    ("a" ∈ ["a", "a"] ∧
      ∃ c, process_user_data ["a", "a"] [1, 0] "a" World.initial = .ok c ∧ c.ret = 0) ∧
    (∀ (names : List String) (scores : List Int) (target : String) (w : World),
      target ∉ names → ∃ c, process_user_data names scores target w = .ok c ∧ c.ret = 0) ∧
    ¬ (∀ (names : List String) (scores : List Int) (target : String) (w : World) (c : Call),
      names.length = scores.length → process_user_data names scores target w = .ok c →
        c.ret = 0 → target ∉ names) := by
  refine ⟨⟨by decide, _, rfl, rfl⟩, ⟨by decide, _, rfl, rfl⟩, ⟨by decide, _, rfl, rfl⟩, ?_, ?_⟩
  · intro names scores target w habs
    rcases process_user_data_cases names scores target w with ⟨c, h1, _, h3⟩ | ⟨_, h2⟩
    · exact ⟨c, h1, by rw [h3 habs]; rfl⟩
    · exact absurd h2.2 habs
  · intro h
    exact h ["a"] [0] "a" World.initial _ rfl rfl rfl (by decide)

theorem cstr_of_no_nul (s : String) (h : Char.ofNat 0 ∉ s.data) : cstr s = s := by
  unfold cstr
  have : s.data.takeWhile (fun c => c != Char.ofNat 0) = s.data := by
    rw [List.takeWhile_eq_self_iff]
    intro c hc
    simp only [bne_iff_ne, ne_eq]
    intro e
    exact h (e ▸ hc)
  rw [this]

/-- C7, as stated, fails: for a target with an embedded NUL character, `printf` with `%s`
on `c_str()` stops at the NUL, so the line does not contain the target string itself. -/
theorem process_user_data_line_truncates_at_nul :
    (["a\x00b"] : List String).length = ([5] : List Int).length ∧
      ∃ c, process_user_data ["a\x00b"] [5] "a\x00b" World.initial = .ok c ∧
        c.world.out = "Found 1 users with name a\n" ∧
        c.world.out ≠ World.initial.out ++ "Found " ++ toString (List.count "a\x00b" ["a\x00b"])
          ++ " users with name " ++ "a\x00b" ++ "\n" :=
  ⟨rfl, _, rfl, rfl, by decide⟩

/-- C7, amended: for equal-length names and scores the call appends exactly the text
"Found <c> users with name <t>\n" to the output, where c is the number of positions whose
name equals the target (so 0 <= c <= length of names) and <t> is the target up to, not
including, its first NUL character (the whole target when it contains none); this is so
with and without matches, and any other scores of the same length give the same output. -/
theorem process_user_data_output (names : List String) (scores scores' : List Int)
    (target : String) (w : World) (hlen : names.length = scores.length)
    (hlen' : names.length = scores'.length) :
    ∃ c c', process_user_data names scores target w = .ok c ∧
      process_user_data names scores' target w = .ok c' ∧
      c.world.out = w.out ++ ("Found " ++ toString (names.count target)
        ++ " users with name " ++ cstr target ++ "\n") ∧
      c'.world.out = c.world.out ∧
      names.count target ≤ names.length ∧
      (Char.ofNat 0 ∉ target.data → cstr target = target) := by
  refine ⟨_, _, process_user_data_eq names scores target w hlen.le,
    process_user_data_eq names scores' target w hlen'.le, ?_, ?_, List.count_le_length _ _,
    cstr_of_no_nul target⟩
  · split <;> rfl
  · split <;> rfl

/-- C7, witness: the lists of the driver, and the same names with all scores 0. -/
theorem process_user_data_output_witness :
    (∃ c c', process_user_data ["Alice", "Bob", "Charlie", "Alice"] [88, 92, 76, 95] "Alice"
          World.initial = .ok c ∧
        process_user_data ["Alice", "Bob", "Charlie", "Alice"] [0, 0, 0, 0] "Alice"
          World.initial = .ok c' ∧
        c.world.out = World.initial.out ++ ("Found "
          ++ toString (List.count "Alice" ["Alice", "Bob", "Charlie", "Alice"])
          ++ " users with name " ++ cstr "Alice" ++ "\n") ∧
        c'.world.out = c.world.out ∧
        List.count "Alice" ["Alice", "Bob", "Charlie", "Alice"] ≤
          ["Alice", "Bob", "Charlie", "Alice"].length ∧
        (Char.ofNat 0 ∉ "Alice".data → cstr "Alice" = "Alice")) ∧
      "Found " ++ toString (List.count "Alice" ["Alice", "Bob", "Charlie", "Alice"])
          ++ " users with name " ++ cstr "Alice" ++ "\n" = "Found 2 users with name Alice\n" :=
  ⟨process_user_data_output ["Alice", "Bob", "Charlie", "Alice"] [88, 92, 76, 95] [0, 0, 0, 0]
    "Alice" World.initial (by decide) (by decide), by decide⟩


/-- C8: the call is a function of its three arguments only. From any two states it returns
the same integer and appends the same text (or stops at the same fault), and it leaves the
error slot as it found it. -/
theorem process_user_data_ignores_error_slot (names : List String) (scores : List Int)
    (target : String) (w1 w2 : World) :
    match process_user_data names scores target w1,
      process_user_data names scores target w2 with
    | .ok c1, .ok c2 =>
      c1.ret = c2.ret ∧
        (∃ line, c1.world.out = w1.out ++ line ∧ c2.world.out = w2.out ++ line) ∧
        c1.world.last_error_message = w1.last_error_message ∧
        c2.world.last_error_message = w2.last_error_message
    | .error e1, .error e2 => e1 = e2
    | _, _ => False := by
  rcases process_user_data_frame names scores target w1 w2 with
    ⟨e, h1, h2⟩ | ⟨ret, line, divs, h1, h2⟩
  · rw [h1, h2]
  · rw [h1, h2]
    exact ⟨rfl, ⟨line, rfl, rfl⟩, rfl, rfl⟩

/-- C9: with partial indexing, if scores is at least as long as names (equal length
included) no read of the loop is out of bounds and the call returns; and for every input
the call never divides by zero, never runs out of fuel, evaluates `/` only with a positive
`user_count`, and can only fault by reading a too short scores out of bounds. -/
theorem process_user_data_safe (names : List String) (scores : List Int) (target : String)
    (w : World) :
    (names.length ≤ scores.length → ∃ c, process_user_data names scores target w = .ok c) ∧
      process_user_data names scores target w ≠ .error .divByZero ∧
      process_user_data names scores target w ≠ .error .outOfFuel ∧
      (∀ c, process_user_data names scores target w = .ok c → ∀ d ∈ c.divisions, 0 < d.2) ∧
      (∀ e, process_user_data names scores target w = .error e →
        e = .outOfBounds ∧ scores.length < names.length) := by
  rcases process_user_data_cases names scores target w with ⟨c, h1, h2, _⟩ | ⟨h1, h2, _⟩
  · rw [h1]
    refine ⟨fun _ => ⟨c, rfl⟩, by simp, by simp, ?_, by simp⟩
    intro c' hc'
    have : c = c' := by simpa using hc'
    exact this ▸ h2
  · rw [h1]
    refine ⟨fun h => absurd h h2, by simp, by simp, by simp, ?_⟩
    intro e he
    have : Fault.outOfBounds = e := by simpa using he
    exact ⟨this.symm, by omega⟩

/-- C9, witness: scores longer than names; the call returns and its one division is by 2. -/
theorem process_user_data_safe_witness :
    (["a", "b", "a"].length ≤ ([7, 1, 2, 9] : List Int).length →
        ∃ c, process_user_data ["a", "b", "a"] [7, 1, 2, 9] "a" World.initial = .ok c) ∧
      process_user_data ["a", "b", "a"] [7, 1, 2, 9] "a" World.initial ≠ .error .divByZero ∧
      process_user_data ["a", "b", "a"] [7, 1, 2, 9] "a" World.initial ≠ .error .outOfFuel ∧
      (∀ c, process_user_data ["a", "b", "a"] [7, 1, 2, 9] "a" World.initial = .ok c →
        ∀ d ∈ c.divisions, 0 < d.2) ∧
      (∀ e, process_user_data ["a", "b", "a"] [7, 1, 2, 9] "a" World.initial = .error e →
        e = .outOfBounds ∧ ([7, 1, 2, 9] : List Int).length < ["a", "b", "a"].length) :=
  process_user_data_safe ["a", "b", "a"] [7, 1, 2, 9] "a" World.initial


/-! ## The mean lies between the extremes -/

theorem exists_min_max : ∀ (l : List Int), l ≠ [] →
    ∃ lo ∈ l, ∃ hi ∈ l, ∀ s ∈ l, lo ≤ s ∧ s ≤ hi
  | [], h => absurd rfl h
  | [a], _ => ⟨a, by simp, a, by simp, by simp⟩
  | a :: b :: l, _ => by
    obtain ⟨lo, hlo, hi, hhi, hall⟩ := exists_min_max (b :: l) (by simp)
    refine ⟨min a lo, ?_, max a hi, ?_, ?_⟩
    · rcases min_choice a lo with h | h
      · rw [h]; simp
      · rw [h]; exact List.mem_cons_of_mem _ hlo
    · rcases max_choice a hi with h | h
      · rw [h]; simp
      · rw [h]; exact List.mem_cons_of_mem _ hhi
    · intro s hs
      rcases List.mem_cons.mp hs with h | h
      · subst h
        exact ⟨min_le_left _ _, le_max_left _ _⟩
      · have := hall s h
        exact ⟨le_trans (min_le_right _ _) this.1, le_trans this.2 (le_max_right _ _)⟩

theorem sum_bounds (lo hi : Int) : ∀ (l : List Int), (∀ s ∈ l, lo ≤ s ∧ s ≤ hi) →
    lo * l.length ≤ l.sum ∧ l.sum ≤ hi * l.length
  | [], _ => by simp
  | a :: l, h => by
    have ha := h a (by simp)
    have ih := sum_bounds lo hi l (fun s hs => h s (List.mem_cons_of_mem _ hs))
    simp only [List.length_cons, List.sum_cons, Nat.cast_add, Nat.cast_one, mul_add, mul_one]
    omega

theorem tdiv_bounds_of_nonneg {S n lo hi : Int} (hS : 0 ≤ S) (hn : 0 < n)
    (h1 : lo * n ≤ S) (h2 : S ≤ hi * n) : lo ≤ Int.tdiv S n ∧ Int.tdiv S n ≤ hi := by
  rw [Int.tdiv_eq_ediv hS hn.le]
  constructor
  · exact (Int.le_ediv_iff_mul_le hn).mpr h1
  · have : S / n < hi + 1 := by
      rw [Int.ediv_lt_iff_lt_mul hn]
      have : (hi + 1) * n = hi * n + n := by ring
      omega
    omega

theorem tdiv_bounds {S n lo hi : Int} (hn : 0 < n)
    (h1 : lo * n ≤ S) (h2 : S ≤ hi * n) : lo ≤ Int.tdiv S n ∧ Int.tdiv S n ≤ hi := by
  rcases le_total 0 S with hS | hS
  · exact tdiv_bounds_of_nonneg hS hn h1 h2
  · have h := @tdiv_bounds_of_nonneg (-S) n (-hi) (-lo) (by omega) hn
      (by rw [neg_mul]; omega) (by rw [neg_mul]; omega)
    rw [Int.neg_tdiv] at h
    omega

/-- C10: for equal-length names and scores, a target with at least one match and a running
sum that never leaves the range of `int`, the returned value lies between the smallest and
the largest matched score, inclusive, whatever the signs of the matched scores. -/
theorem process_user_data_between_min_max (names : List String) (scores : List Int)
    (target : String) (w : World) (hlen : names.length = scores.length)
    (hn : 1 ≤ names.count target)
    (hsum : ∀ k, k ≤ (matchedScores names scores target).length →
      IsInt ((matchedScores names scores target).take k).sum) :
    ∃ c, process_user_data names scores target w = .ok c ∧
      ∃ lo ∈ matchedScores names scores target, ∃ hi ∈ matchedScores names scores target,
        (∀ s ∈ matchedScores names scores target, lo ≤ s ∧ s ≤ hi) ∧
        lo ≤ c.ret ∧ c.ret ≤ hi := by
  have hl := matchedScores_length target names scores hlen.le
  have hne : matchedScores names scores target ≠ [] := by
    intro e
    rw [e] at hl
    simp at hl
    omega
  obtain ⟨lo, hlo, hi, hhi, hall⟩ := exists_min_max _ hne
  have hb := sum_bounds lo hi _ hall
  rw [hl] at hb
  have hq := tdiv_bounds (by omega : (0 : Int) < (names.count target : Int)) hb.1 hb.2
  exact ⟨_, process_user_data_mean names scores target w hlen.le hn hsum,
    lo, hlo, hi, hhi, hall, hq.1, hq.2⟩

/-- C10, witness: matched scores -3, 4 and -4 of mixed sign; the mean -1 lies in [-4, 4]. -/
theorem process_user_data_between_min_max_witness :
    (∃ c, process_user_data ["a", "b", "a", "a"] [-3, 100, 4, -4] "a" World.initial = .ok c ∧
        c.ret = -1) ∧
      ∃ c, process_user_data ["a", "b", "a", "a"] [-3, 100, 4, -4] "a" World.initial = .ok c ∧
        ∃ lo ∈ matchedScores ["a", "b", "a", "a"] [-3, 100, 4, -4] "a",
          ∃ hi ∈ matchedScores ["a", "b", "a", "a"] [-3, 100, 4, -4] "a",
            (∀ s ∈ matchedScores ["a", "b", "a", "a"] [-3, 100, 4, -4] "a", lo ≤ s ∧ s ≤ hi) ∧
            lo ≤ c.ret ∧ c.ret ≤ hi :=
  ⟨⟨_, rfl, rfl⟩,
    process_user_data_between_min_max ["a", "b", "a", "a"] [-3, 100, 4, -4] "a" World.initial
      (by decide) (by decide) (by decide)⟩


/-! ## Records of other users -/

theorem matchedScores_congr (t : String) :
    ∀ (names : List String) (scores scores' : List Int),
      names.length ≤ scores.length → names.length ≤ scores'.length →
      (∀ i : Nat, names[i]? = some t → scores'[i]? = scores[i]?) →
      matchedScores names scores' t = matchedScores names scores t
  | [], scores, scores', _, _, _ => by simp [matchedScores_nil_left]
  | n :: ns, [], _, h, _, _ => by simp at h
  | n :: ns, _ :: _, [], _, h, _ => by simp at h
  | n :: ns, s :: ss, s' :: ss', h1, h2, hag => by
    have ih := matchedScores_congr t ns ss ss' (by simpa using h1) (by simpa using h2)
      (fun i hi => by simpa using hag (i + 1) (by simpa using hi))
    by_cases hm : n = t
    · have h0 : s' = s := by simpa using hag 0 (by simp [hm])
      rw [hm, h0, matchedScores_cons_eq, matchedScores_cons_eq, ih]
    · rw [matchedScores_cons_ne hm, matchedScores_cons_ne hm, ih]

theorem matchedScores_all_match (t : String) :
    ∀ (names : List String) (scores : List Int), (∀ n ∈ names, n = t) →
      names.length = scores.length → matchedScores names scores t = scores
  | [], [], _, _ => matchedScores_nil_left [] t
  | [], _ :: _, _, h => by simp at h
  | _ :: _, [], _, h => by simp at h
  | n :: ns, s :: ss, hall, h => by
    have hn : n = t := hall n (by simp)
    rw [hn, matchedScores_cons_eq, matchedScores_all_match t ns ss
      (fun m hm => hall m (List.mem_cons_of_mem _ hm)) (by simpa using h)]

theorem filter_target_length (names : List String) (t : String) :
    (names.filter (fun n => decide (n = t))).length = names.count t := by
  rw [List.count_eq_countP, List.countP_eq_length_filter]
  congr 1

/-- C11: records of other users do not influence the result. For equal-length names and
scores, scores of the same length that agree with them at every position whose name equals
the target give the same outcome (return value and printed line); and so do the sublists
that keep only the positions whose name equals the target. -/
theorem process_user_data_other_records (names : List String) (scores scores' : List Int)
    (target : String) (w : World) (hlen : names.length = scores.length)
    (hlen' : scores'.length = scores.length)
    (hagree : ∀ i : Nat, names[i]? = some target → scores'[i]? = scores[i]?) :
    process_user_data names scores' target w = process_user_data names scores target w ∧
      process_user_data (names.filter (fun n => decide (n = target)))
          (matchedScores names scores target) target w =
        process_user_data names scores target w := by
  constructor
  · rw [process_user_data_eq names scores' target w (by omega),
      process_user_data_eq names scores target w hlen.le,
      matchedScores_congr target names scores scores' hlen.le (by omega) hagree]
  · have hl : (names.filter (fun n => decide (n = target))).length =
        (matchedScores names scores target).length := by
      rw [filter_target_length, matchedScores_length target names scores hlen.le]
    have hc : (names.filter (fun n => decide (n = target))).count target =
        names.count target := List.count_filter (by simp)
    have hm := matchedScores_all_match target _ _
      (fun n hn => by simpa using (List.mem_filter.mp hn).2) hl
    rw [process_user_data_eq _ _ target w hl.le,
      process_user_data_eq names scores target w hlen.le, hc, hm]

/-- C11, witness: the scores of "Bob" and "Charlie" are changed; the kept sublists are
["Alice", "Alice"] and [88, 95]; every call returns 91. -/
theorem process_user_data_other_records_witness :
    (process_user_data ["Alice", "Bob", "Charlie", "Alice"] [88, 0, -7, 95] "Alice"
          World.initial =
        process_user_data ["Alice", "Bob", "Charlie", "Alice"] [88, 92, 76, 95] "Alice"
          World.initial ∧
      process_user_data
          (["Alice", "Bob", "Charlie", "Alice"].filter (fun n => decide (n = "Alice")))
          (matchedScores ["Alice", "Bob", "Charlie", "Alice"] [88, 92, 76, 95] "Alice") "Alice"
          World.initial =
        process_user_data ["Alice", "Bob", "Charlie", "Alice"] [88, 92, 76, 95] "Alice"
          World.initial) ∧
      ["Alice", "Bob", "Charlie", "Alice"].filter (fun n => decide (n = "Alice")) =
        ["Alice", "Alice"] ∧
      matchedScores ["Alice", "Bob", "Charlie", "Alice"] [88, 92, 76, 95] "Alice" = [88, 95] :=
  ⟨process_user_data_other_records ["Alice", "Bob", "Charlie", "Alice"] [88, 92, 76, 95]
      [88, 0, -7, 95] "Alice" World.initial (by decide) (by decide)
      (by
        intro i hi
        match i, hi with
        | 0, _ => rfl
        | 1, h => simp at h
        | 2, h => simp at h
        | 3, _ => rfl
        | i + 4, h => simp at h),
    by decide, by decide⟩


/-! ## Order of the records -/

theorem wrapInt_add_wrapInt (a s : Int) : wrapInt (wrapInt a + s) = wrapInt (a + s) := by
  unfold wrapInt
  omega

theorem wrapSum_wrapInt : ∀ (l : List Int) (a : Int),
    wrapSum (wrapInt a) l = wrapInt (a + l.sum)
  | [], a => by simp [wrapSum]
  | s :: l, a => by
    have ih := wrapSum_wrapInt l (a + s)
    simp only [wrapSum, List.foldl_cons, List.sum_cons] at ih ⊢
    rw [wrapInt_add_wrapInt, ih, add_assoc]

theorem wrapSum_zero (l : List Int) : wrapSum 0 l = wrapInt l.sum := by
  have h := wrapSum_wrapInt l 0
  have h0 : wrapInt 0 = 0 := by decide
  rwa [h0, zero_add] at h

theorem reorder_zip (names : List String) (scores : List Int)
    (hlen : names.length = scores.length) :
    ∀ (p : List Nat), (∀ i ∈ p, i < names.length) →
      (reorder p names).zip (reorder p scores) = reorder p (names.zip scores)
  | [], _ => rfl
  | i :: p, h => by
    have hi : i < names.length := h i (by simp)
    have hs : i < scores.length := by omega
    have hz : i < (names.zip scores).length := by simp; omega
    have ih := reorder_zip names scores hlen p (fun j hj => h j (List.mem_cons_of_mem _ hj))
    simp only [reorder, List.filterMap_cons, List.getElem?_eq_getElem hi,
      List.getElem?_eq_getElem hs, List.getElem?_eq_getElem hz, List.zip_cons_cons] at ih ⊢
    rw [ih, List.getElem_zip]

theorem reorder_range {α : Type} : ∀ (l : List α), reorder (List.range l.length) l = l := by
  intro l
  induction l using List.reverseRecOn with
  | nil => rfl
  | append_singleton l a ih =>
    rw [List.length_append, List.length_singleton, List.range_succ]
    unfold reorder at ih ⊢
    rw [List.filterMap_append]
    have h1 : List.filterMap (fun i => (l ++ [a])[i]?) (List.range l.length) =
        List.filterMap (fun i => l[i]?) (List.range l.length) := by
      apply List.filterMap_congr
      intro i hi
      have : i < l.length := List.mem_range.mp hi
      simp [List.getElem?_append_left this]
    rw [h1, ih]
    simp


theorem reorder_perm {α : Type} (l : List α) (p : List Nat)
    (hp : p.Perm (List.range l.length)) : (reorder p l).Perm l := by
  have h := hp.filterMap (fun i => l[i]?)
  have h2 := reorder_range l
  unfold reorder at h2 ⊢
  rwa [h2] at h

theorem matchedScores_reorder (names : List String) (scores : List Int) (t : String)
    (p : List Nat) (hlen : names.length = scores.length)
    (hp : p.Perm (List.range names.length)) :
    (matchedScores (reorder p names) (reorder p scores) t).Perm
      (matchedScores names scores t) := by
  have hmem : ∀ i ∈ p, i < names.length := fun i hi => List.mem_range.mp (hp.mem_iff.mp hi)
  have hz : (names.zip scores).length = names.length := by
    rw [List.length_zip, ← hlen, Nat.min_self]
  unfold matchedScores
  rw [reorder_zip names scores hlen p hmem]
  exact ((reorder_perm (names.zip scores) p (by rw [hz]; exact hp)).filter _).map _

/-- C12: the result depends only on the multiset of (name, score) pairs. For equal-length
names and scores, every permutation p of their positions and every target, the call on
names and scores both reordered by p has the same outcome as on the original lists: the
same return value and the same printed match count (the count itself is the same). With
32-bit wrap-around this holds also when a running sum leaves the range of `int`. -/
theorem process_user_data_reordered (names : List String) (scores : List Int)
    (target : String) (w : World) (p : List Nat) (hlen : names.length = scores.length)
    (hp : p.Perm (List.range names.length)) :
    process_user_data (reorder p names) (reorder p scores) target w =
        process_user_data names scores target w ∧
      (reorder p names).count target = names.count target := by
  have hn := reorder_perm names p hp
  have hs := reorder_perm scores p (hlen ▸ hp)
  have hc : (reorder p names).count target = names.count target := hn.count_eq target
  have hl : (reorder p names).length ≤ (reorder p scores).length := by
    rw [hn.length_eq, hs.length_eq, hlen]
  have hsum := (matchedScores_reorder names scores target p hlen hp).sum_eq
  refine ⟨?_, hc⟩
  rw [process_user_data_eq _ _ target w hl, process_user_data_eq names scores target w hlen.le,
    hc, wrapSum_zero, wrapSum_zero, hsum]

/-- C12, witness: the lists of the driver read in the order of positions 2, 0, 3, 1. -/
theorem process_user_data_reordered_witness :
    reorder [2, 0, 3, 1] ["Alice", "Bob", "Charlie", "Alice"] =
        ["Charlie", "Alice", "Alice", "Bob"] ∧
      reorder [2, 0, 3, 1] ([88, 92, 76, 95] : List Int) = [76, 88, 95, 92] ∧
      (process_user_data (reorder [2, 0, 3, 1] ["Alice", "Bob", "Charlie", "Alice"])
          (reorder [2, 0, 3, 1] [88, 92, 76, 95]) "Alice" World.initial =
        process_user_data ["Alice", "Bob", "Charlie", "Alice"] [88, 92, 76, 95] "Alice"
          World.initial ∧
      (reorder [2, 0, 3, 1] ["Alice", "Bob", "Charlie", "Alice"]).count "Alice" =
        ["Alice", "Bob", "Charlie", "Alice"].count "Alice") :=
  ⟨by decide, by decide,
    process_user_data_reordered ["Alice", "Bob", "Charlie", "Alice"] [88, 92, 76, 95] "Alice"
      World.initial [2, 0, 3, 1] (by decide) (by decide)⟩

/-! ## Fixed width against unbounded integers -/

/-- C13: with `int` as 32-bit two's complement and overflow as wrap-around, for equal-length
names and scores and every target, if every prefix sum of the matched scores (in list
order) lies in [-2^31, 2^31-1] then the call returns exactly the truncated mean of the
matched scores computed over unbounded integers (0 when nothing matches); without that
hypothesis the two differ for the two matched `int` scores 2147483647 and 1. -/
theorem process_user_data_refines_aggregate :
    (∀ (names : List String) (scores : List Int) (target : String) (w : World),
      names.length = scores.length →
      (∀ k, k ≤ (matchedScores names scores target).length →
        IsInt ((matchedScores names scores target).take k).sum) →
      ∃ c, process_user_data names scores target w = .ok c ∧
        c.ret = aggregate names scores target) ∧
    ((["a", "a"] : List String).length = ([2147483647, 1] : List Int).length ∧
      (∀ s ∈ ([2147483647, 1] : List Int), IsInt s) ∧
      ∃ c, process_user_data ["a", "a"] [2147483647, 1] "a" World.initial = .ok c ∧
        c.ret = -1073741824 ∧ aggregate ["a", "a"] [2147483647, 1] "a" = 1073741824) := by
  refine ⟨?_, by decide, by decide, _, rfl, rfl, by decide⟩
  intro names scores target w hlen hsum
  have hl := matchedScores_length target names scores hlen.le
  by_cases hc : 1 ≤ names.count target
  · refine ⟨_, process_user_data_mean names scores target w hlen.le hc hsum, ?_⟩
    have hpos : 0 < names.count target := by omega
    simp only [finish, aggregate, hl, hpos, if_true]
  · have h0 : names.count target = 0 := by omega
    have hc0 : ¬ 0 < (names.count target : Int) := by omega
    refine ⟨_, process_user_data_eq names scores target w hlen.le, ?_⟩
    have hnp : ¬ 0 < names.count target := by omega
    simp only [hc0, if_false, finish, aggregate, hl, hnp]

/-- C13, witness: the lists of the driver, prefix sums 0, 88 and 183; both give 91. -/
theorem process_user_data_refines_aggregate_witness :
    aggregate ["Alice", "Bob", "Charlie", "Alice"] [88, 92, 76, 95] "Alice" = 91 ∧
      ∃ c, process_user_data ["Alice", "Bob", "Charlie", "Alice"] [88, 92, 76, 95] "Alice"
          World.initial = .ok c ∧
        c.ret = aggregate ["Alice", "Bob", "Charlie", "Alice"] [88, 92, 76, 95] "Alice" :=
  ⟨by decide,
    process_user_data_refines_aggregate.1 ["Alice", "Bob", "Charlie", "Alice"]
      [88, 92, 76, 95] "Alice" World.initial (by decide) (by decide)⟩

end UserProcessor
